import Mathlib

/-!
# Multi-threaded file downloader: planner, chunk queue, workers, progress reporter

A shallow embedding of `downloader.c`.

* `long` offsets and sizes are natural numbers: `main` rejects `totalSize <= 0`
  before any loop runs (line 257), every offset the loops build is non-negative,
  and for the object sizes treated below nothing comes near `2^63`.
  `determine_thread_count` takes an integer, since its argument is an arbitrary `long`.
* The globals `chunkQueue`, `queueFront`, `queueRear` form the record `Queue`;
  together with `totalDownloaded`, `totalSize`, `completed_chunks`, the destination
  file and a trace of observable events they form the record `World`.
* `completed_chunks` is a function from index to byte; only the indices below
  `MAX_CHUNKS` are inside the C array.
* Loops that C writes with `while (1)` or `for` take a fuel argument and return
  `none` when the fuel is used up before the loop exits.
* The outcome of each fetch attempt comes from an oracle, indexed by the range and
  by the number of the attempt (0, 1, 2).
* The worker threads are run one after another and the retry loop of one range is
  one step; the queue mutex makes every range the property of a single worker, the
  counter is only added to, and distinct ranges touch distinct bitmap slots and
  distinct bytes of the file, so the final state is that of any interleaving.
-/

namespace Downloader

/-! ## Constants (lines 12-15) -/

def MAX_THREADS : Nat := 16
def MAX_CHUNKS : Nat := 2048
def CHUNK_SIZE : Nat := 1024 * 1024
def MAX_RETRIES : Nat := 3

/-! ## Data (lines 17-33) -/

/-- The struct `Chunk`: inclusive byte offsets `start` and `end`. -/
structure Chunk where
  start : Nat
  end_ : Nat
deriving DecidableEq

/-- The globals `chunkQueue`, `queueFront`, `queueRear`. -/
structure Queue where
  chunkQueue : Nat → Chunk
  queueFront : Nat
  queueRear : Nat

/-- The queue as the program starts: a zeroed array, `queueFront = queueRear = 0`. -/
def emptyQueue : Queue :=
  { chunkQueue := fun _ => ⟨0, 0⟩, queueFront := 0, queueRear := 0 }

/-- Events a run leaves behind, in order. -/
inductive Event where
  /-- The call of `curl_easy_perform` for the range. -/
  | perform (c : Chunk)
  /-- The line "Chunk s-e failed after retries." went to stderr. -/
  | report (c : Chunk)
  /-- The call of `save_progress`. -/
  | saved
deriving DecidableEq

/-- The mutable globals, the destination file and the event trace. -/
structure World where
  queue : Queue
  totalDownloaded : Nat
  totalSize : Nat
  completed_chunks : Nat → Nat
  file : List Nat
  trace : List Event

/-! ## The chunk queue (lines 45-68) -/

/-- The function `enqueue_chunk`: the new queue and the returned `int`. -/
def enqueue_chunk (q : Queue) (start end_ : Nat) : Queue × Nat :=
  if (q.queueRear + 1) % MAX_CHUNKS = q.queueFront then (q, 0)
  else
    ({ q with
        chunkQueue := Function.update q.chunkQueue q.queueRear ⟨start, end_⟩
        queueRear := (q.queueRear + 1) % MAX_CHUNKS }, 1)

/-- The function `dequeue_chunk`: `none` for the return value 0, otherwise the
chunk stored through the pointer and the new queue. -/
def dequeue_chunk (q : Queue) : Option (Chunk × Queue) :=
  if q.queueFront = q.queueRear then none
  else some (q.chunkQueue q.queueFront,
    { q with queueFront := (q.queueFront + 1) % MAX_CHUNKS })

/-- The chunks that successive calls of `dequeue_chunk` hand out, at most `fuel` of them,
with the queue that is left. -/
def drain : Nat → Queue → List Chunk × Queue
  | 0, q => ([], q)
  | fuel + 1, q =>
    match dequeue_chunk q with
    | none => ([], q)
    | some (c, q') => (c :: (drain fuel q').1, (drain fuel q').2)

/-- The ranges held by the queue: what `dequeue_chunk` returns until it reports empty.
`MAX_CHUNKS` calls are enough, see `queuedRanges_of_holds`. -/
def queuedRanges (q : Queue) : List Chunk := (drain MAX_CHUNKS q).1

/-- Calls `enqueue_chunk` for each chunk of a list in turn and collects the return values. -/
def enqueueAll : Queue → List Chunk → Queue × List Nat
  | q, [] => (q, [])
  | q, c :: cs =>
    ((enqueueAll (enqueue_chunk q c.start c.end_).1 cs).1,
      (enqueue_chunk q c.start c.end_).2 :: (enqueueAll (enqueue_chunk q c.start c.end_).1 cs).2)

/-! ## The planner (lines 264-271 and 289-297) -/

/-- The loop `for (long i = 0; i < totalSize; i += CHUNK_SIZE) body`, shared by both
loops of `main`; `i` is the current counter and `s` the state the body works on. -/
def forChunks {σ : Type} (totalSize : Nat) (body : Nat → σ → σ) : Nat → Nat → σ → Option σ
  | fuel, i, s =>
    if i < totalSize then
      match fuel with
      | 0 => none
      | fuel + 1 => forChunks totalSize body fuel (i + CHUNK_SIZE) (body i s)
    else some s

/-- The expression `(i + CHUNK_SIZE > totalSize) ? totalSize - 1 : i + CHUNK_SIZE - 1`
of lines 268 and 295. -/
def chunkEnd (totalSize i : Nat) : Nat :=
  if i + CHUNK_SIZE > totalSize then totalSize - 1 else i + CHUNK_SIZE - 1

/-- Body of the first loop (lines 266-270), acting on `totalDownloaded`. -/
def baselineBody (totalSize : Nat) (completed_chunks : Nat → Nat) (i : Nat)
    (totalDownloaded : Nat) : Nat :=
  let chunk_index := i / CHUNK_SIZE
  if completed_chunks chunk_index = 1 then
    let end_ := chunkEnd totalSize i
    totalDownloaded + (end_ - i + 1)
  else totalDownloaded

/-- Body of the second loop (lines 290-296), acting on the queue; the return value of
`enqueue_chunk` is dropped, as in the source. -/
def planBody (totalSize : Nat) (completed_chunks : Nat → Nat) (i : Nat) (q : Queue) : Queue :=
  let chunk_index := i / CHUNK_SIZE
  if completed_chunks chunk_index = 1 then q
  else
    let end_ := chunkEnd totalSize i
    (enqueue_chunk q i end_).1

/-- The first loop of `main` (lines 264-271), started with `totalDownloaded = 0`. The
counter grows by `CHUNK_SIZE > 0` each pass, so `totalSize` passes are always enough. -/
def baselineLoop (totalSize : Nat) (completed_chunks : Nat → Nat) : Option Nat :=
  forChunks totalSize (baselineBody totalSize completed_chunks) totalSize 0 0

/-- The second loop of `main` (lines 289-297), started with the empty queue. -/
def planLoop (totalSize : Nat) (completed_chunks : Nat → Nat) : Option Queue :=
  forChunks totalSize (planBody totalSize completed_chunks) totalSize 0 emptyQueue

/-- Ghost body: records, for every pass of the loop, the index `i / CHUNK_SIZE` the
planner computes together with the range `[i, end]` of that pass. -/
def recordBody (totalSize : Nat) (i : Nat) (acc : List (Nat × Chunk)) : List (Nat × Chunk) :=
  acc ++ [(i / CHUNK_SIZE, ⟨i, chunkEnd totalSize i⟩)]

/-- The planned ranges, each with the planner's index for it. The loop counter grows
by `CHUNK_SIZE > 0` each pass, so `totalSize` passes are always enough. -/
def plannedRanges (totalSize : Nat) : Option (List (Nat × Chunk)) :=
  forChunks totalSize (recordBody totalSize) totalSize 0 []

/-- The function `determine_thread_count` (lines 216-222). -/
def determine_thread_count (filesize_bytes : Int) : Nat :=
  if filesize_bytes < 10 * 1024 * 1024 then 2
  else if filesize_bytes < 50 * 1024 * 1024 then 4
  else if filesize_bytes < 200 * 1024 * 1024 then 8
  else if filesize_bytes < 500 * 1024 * 1024 then 12
  else 16

/-! ## The destination file -/

/-- Writing `bytes` at offset `pos` of a file: bytes before `pos` stay, a gap between
the old end of the file and `pos` reads as zeros, bytes after the written span stay. -/
def writeAt (file : List Nat) (pos : Nat) (bytes : List Nat) : List Nat :=
  file.take pos ++ List.replicate (pos - file.length) 0 ++ bytes
    ++ file.drop (pos + bytes.length)

/-- Lines 277-284 of `main` on the path where `fopen` succeeds: mode "wb" creates the
file or truncates it to length zero, then one zero byte is written at `totalSize - 1`. -/
def fileSetup (totalSize : Nat) (_oldFile : List Nat) : List Nat :=
  writeAt [] (totalSize - 1) [0]

/-! ## The worker (lines 36-43 and 110-164) -/

/-- The callback `write_data`, for a span that `fwrite` wrote in full at offset `pos`. -/
def write_data (w : World) (pos : Nat) (span : List Nat) : World :=
  { w with file := writeAt w.file pos span
           totalDownloaded := w.totalDownloaded + span.length }

/-- One transfer: the spans arrive in order and each is written where the previous
one ended, the first at `pos`. -/
def deliver : List (List Nat) → Nat → World → World
  | [], _, w => w
  | span :: rest, pos, w => deliver rest (pos + span.length) (write_data w pos span)

/-- What one pass of the retry loop meets. -/
inductive Attempt where
  /-- The call of `curl_easy_init` returned NULL (line 120). -/
  | initFailed
  /-- The call of `fopen` with mode "rb+" returned NULL (line 126). -/
  | openFailed
  /-- The call of `curl_easy_perform` ran, `write_data` wrote the spans, and the result was
  `CURLE_OK` exactly when `ok` holds. -/
  | performed (ok : Bool) (spans : List (List Nat))

/-- Whether the attempt ended with `CURLE_OK`. -/
def Attempt.ok : Attempt → Bool
  | .performed ok _ => ok
  | _ => false

/-- Number of bytes the attempt passed through `write_data`. -/
def Attempt.bytes : Attempt → Nat
  | .performed _ spans => (spans.map List.length).sum
  | _ => 0

/-- Whether the attempt got as far as `curl_easy_perform`. -/
def Attempt.fetched : Attempt → Bool
  | .performed _ _ => true
  | _ => false

/-- The outcome of attempt number `k` (0, 1, 2) on a range. -/
abbrev Oracle := Chunk → Nat → Attempt

/-- The function `save_progress`: the sidecar file is not part of the state, the call is
recorded in the trace. -/
def save_progress (w : World) : World :=
  { w with trace := w.trace ++ [Event.saved] }

/-- Lines 130-138: the transfer of one attempt. `curl_easy_perform` is called and the
spans it receives are written from offset `chunk.start` on. -/
def performFetch (chunk : Chunk) (spans : List (List Nat)) (w : World) : World :=
  deliver spans chunk.start { w with trace := w.trace ++ [Event.perform chunk] }

/-- Lines 141-151: the branch `res == CURLE_OK`; the flag of index
`chunk.start / CHUNK_SIZE` is set and the bitmap is saved. -/
def onSuccess (chunk : Chunk) (w : World) : World :=
  let chunk_index := chunk.start / CHUNK_SIZE
  save_progress { w with completed_chunks := Function.update w.completed_chunks chunk_index 1 }

/-- Lines 154-157: the branch for a failed transfer; the report is printed when
`retries == 0`. -/
def onFailure (chunk : Chunk) (retries : Nat) (w : World) : World :=
  if retries = 0 then { w with trace := w.trace ++ [Event.report chunk] } else w

/-- The loop `while (retries-- > 0)` of lines 118-160. The argument is the value of
`retries` when the test runs; inside the body it is one less. The attempt made with
`retries` left is attempt number `MAX_RETRIES - 1 - retries`. -/
def retryLoop (oracle : Oracle) (chunk : Chunk) : Nat → World → World
  | 0, w => w
  | retries + 1, w =>
    match oracle chunk (MAX_RETRIES - (retries + 1)) with
    | .initFailed => retryLoop oracle chunk retries w
    | .openFailed => retryLoop oracle chunk retries w
    | .performed ok spans =>
      if ok then onSuccess chunk (performFetch chunk spans w)
      else retryLoop oracle chunk retries (onFailure chunk retries (performFetch chunk spans w))

/-- The state after `dequeue_chunk` has updated the queue globals. -/
def World.withQueue (w : World) (q : Queue) : World := { w with queue := q }

/-- The loop `while (1)` of `download_worker`. -/
def workerLoop (oracle : Oracle) : Nat → World → Option World
  | 0, _ => none
  | fuel + 1, w =>
    match dequeue_chunk w.queue with
    | none => some w
    | some (chunk, q) =>
      workerLoop oracle fuel (retryLoop oracle chunk MAX_RETRIES (w.withQueue q))

/-- The function `download_worker`. The queue never holds `MAX_CHUNKS` chunks, so
`MAX_CHUNKS` passes are enough, see `download_worker_of_holds`. -/
def download_worker (oracle : Oracle) (w : World) : Option World :=
  workerLoop oracle MAX_CHUNKS w

/-- The worker threads of lines 307-313, run one after another. -/
def run_workers (oracle : Oracle) : Nat → World → Option World
  | 0, w => some w
  | n + 1, w => (download_worker oracle w).bind (run_workers oracle n)

/-! ## The progress reporter (lines 166-212) -/

/-- The exit test of `show_progress` (line 206). -/
def reporterDone (w : World) : Bool := decide (w.totalDownloaded ≥ w.totalSize)

/-- Control flow of the loop of `show_progress` once the workers have been joined, when
`totalDownloaded` no longer changes; the drawing of the bar, which reads the clock, is
left out. The result is the number of passes. -/
def show_progress (w : World) : Nat → Option Nat
  | 0 => none
  | fuel + 1 =>
    if w.totalSize ≤ 0 then show_progress w fuel
    else if w.totalDownloaded ≥ w.totalSize then some 1
    else (show_progress w fuel).map (· + 1)

/-! ## `main` (lines 256-323) -/

/-- Lines 262-297 on the path where the destination file can be created: the state in
which the threads are started. `loaded` is `completed_chunks` after `load_progress`,
`oldFile` the destination file found on disk. -/
def startup (totalSize : Nat) (loaded : Nat → Nat) (oldFile : List Nat) : Option World :=
  (baselineLoop totalSize loaded).bind fun totalDownloaded =>
  (planLoop totalSize loaded).bind fun q =>
  some { queue := q
         totalDownloaded := totalDownloaded
         totalSize := totalSize
         completed_chunks := loaded
         file := fileSetup totalSize oldFile
         trace := [] }

/-- The function `main` from line 256 on: `probe` is the result of `get_file_size`,
`createOk` tells whether `fopen` of line 277 succeeds, `fuel` bounds the passes of the
reporter. The result is the exit code with the final state. -/
def main (probe : Int) (loaded : Nat → Nat) (oldFile : List Nat) (createOk : Bool)
    (oracle : Oracle) (fuel : Nat) : Option (Nat × Option World) :=
  if probe ≤ 0 then some (1, none)
  else if createOk = false then some (1, none)
  else
    (startup probe.toNat loaded oldFile).bind fun w0 =>
    (run_workers oracle (determine_thread_count probe) w0).bind fun w1 =>
    (show_progress w1 fuel).bind fun _ =>
    some (0, some (save_progress w1))

/-! ## Notions used to state the properties -/

/-- The number of ranges of an object: `totalSize / CHUNK_SIZE` rounded up. -/
def numRanges (totalSize : Nat) : Nat := (totalSize + CHUNK_SIZE - 1) / CHUNK_SIZE

/-- The range of index `i` as the specification writes it:
`[i * CHUNK_SIZE, min ((i + 1) * CHUNK_SIZE, totalSize) - 1]`. -/
def rangeOf (totalSize i : Nat) : Chunk :=
  ⟨i * CHUNK_SIZE, min ((i + 1) * CHUNK_SIZE) totalSize - 1⟩

/-- Byte length of an inclusive range. -/
def Chunk.len (c : Chunk) : Nat := c.end_ - c.start + 1

/-- The index the worker derives from a range (line 148). -/
def Chunk.index (c : Chunk) : Nat := c.start / CHUNK_SIZE

/-- The queue `q` holds exactly the chunks `cs`, oldest first. -/
def Holds (q : Queue) (cs : List Chunk) : Prop :=
  q.queueFront < MAX_CHUNKS ∧ cs.length < MAX_CHUNKS ∧
  q.queueRear = (q.queueFront + cs.length) % MAX_CHUNKS ∧
  ∀ k, k < cs.length → cs[k]? = some (q.chunkQueue ((q.queueFront + k) % MAX_CHUNKS))

/-- The ranges the planner is to queue: those of the indices `0 .. numRanges - 1` whose
byte in the bitmap is not 1, in ascending order. -/
def unflaggedRanges (totalSize : Nat) (bitmap : Nat → Nat) : List Chunk :=
  ((List.range (numRanges totalSize)).filter (fun i => decide (bitmap i ≠ 1))).map
    (rangeOf totalSize)

/-- Appending to a list that takes no more than `MAX_CHUNKS - 1` entries. -/
def pushBounded (cs : List Chunk) (c : Chunk) : List Chunk :=
  if cs.length + 1 < MAX_CHUNKS then cs ++ [c] else cs

/-- The bitmap in which the indices 0 and 2 are flagged complete. -/
def flags02 : Nat → Nat := fun i => if i = 0 ∨ i = 2 then 1 else 0

/-- The bytes of the ranges flagged complete: the sum of the lengths of the ranges of
the indices `0 .. numRanges - 1` whose byte in the bitmap is 1. -/
def flaggedBytes (totalSize : Nat) (bitmap : Nat → Nat) : Nat :=
  (((List.range (numRanges totalSize)).filter (fun i => decide (bitmap i = 1))).map
    (fun i => (rangeOf totalSize i).len)).sum

/-- Total byte length of a list of ranges. -/
def totalLen (cs : List Chunk) : Nat := (cs.map Chunk.len).sum

/-- The range ends with a successful fetch that delivers exactly its bytes: some attempt
within the budget is successful and passes `end - start + 1` bytes through `write_data`,
and no earlier attempt is successful. -/
def EndsWithExactSuccess (oracle : Oracle) (c : Chunk) : Prop :=
  ∃ k, k < MAX_RETRIES ∧ (∀ j, j < k → (oracle c j).ok = false) ∧
    (oracle c k).ok = true ∧ (oracle c k).bytes = c.len

/-- Bytes that the attempts before the first successful one passed through `write_data`. -/
def failedBytes (oracle : Oracle) (c : Chunk) : Nat :=
  (((List.range MAX_RETRIES).takeWhile (fun k => !(oracle c k).ok)).map
    (fun k => (oracle c k).bytes)).sum

/-- What one worker does to the state for a list of ranges taken from the queue in turn. -/
def processAll (oracle : Oracle) (cs : List Chunk) (w : World) : World :=
  cs.foldl (fun w c => retryLoop oracle c MAX_RETRIES w) w

/-- An oracle for which the first attempt on a range writes one byte and fails, and
every later attempt writes one byte and succeeds. -/
def retryOracle : Oracle := fun _ k =>
  if k = 0 then Attempt.performed false [[5]] else Attempt.performed true [[5]]

/-- An oracle for which every attempt reaches `curl_easy_perform`, writes nothing and
fails. -/
def failOracle : Oracle := fun _ _ => Attempt.performed false []

/-- An oracle for which every attempt succeeds at once and writes zero bytes of the
length of the range. -/
def goodOracle : Oracle := fun c _ => Attempt.performed true [List.replicate c.len 0]

/-- The bitmap in which only index 0 is flagged complete. -/
def flags0 : Nat → Nat := fun i => if i = 0 then 1 else 0

/-- A state in which the queue holds the single range `[0,0]` of a one-byte object. -/
def oneRangeWorld : World :=
  { queue := (enqueue_chunk emptyQueue 0 0).1
    totalDownloaded := 0
    totalSize := 1
    completed_chunks := fun _ => 0
    file := [0]
    trace := [] }

/-- The oracle of a run in which every fetch succeeds at the first attempt and delivers
the bytes that the remote object `remote` has on the requested range. -/
def remoteOracle (remote : List Nat) : Oracle := fun c _ =>
  Attempt.performed true [(remote.drop c.start).take c.len]

/-! # Properties -/

/-! ## The queue -/

theorem holds_emptyQueue : Holds emptyQueue [] := by
  refine ⟨by simp [emptyQueue, MAX_CHUNKS], by simp [MAX_CHUNKS], by simp [emptyQueue], ?_⟩
  intro k hk
  simp at hk

theorem enqueue_chunk_of_holds {q : Queue} {cs : List Chunk} (h : Holds q cs) (s e : Nat) :
    Holds (enqueue_chunk q s e).1 (pushBounded cs ⟨s, e⟩) ∧
    (enqueue_chunk q s e).2 = if cs.length + 1 < MAX_CHUNKS then 1 else 0 := by
  obtain ⟨hf, hl, hr, hget⟩ := h
  simp only [MAX_CHUNKS] at hf hl hr hget
  by_cases hfull : cs.length + 1 < 2048
  · have hne : ¬ (q.queueRear + 1) % 2048 = q.queueFront := by rw [hr]; omega
    simp only [enqueue_chunk, pushBounded, MAX_CHUNKS, hne, hfull, if_true, if_false]
    refine ⟨⟨hf, ?_, ?_, ?_⟩, trivial⟩
    · simpa using hfull
    · simp only [MAX_CHUNKS]
      rw [List.length_append, List.length_singleton, hr]
      omega
    · intro k hk
      simp only [MAX_CHUNKS]
      simp only [List.length_append, List.length_singleton] at hk
      by_cases hk' : k < cs.length
      · have hidx : (q.queueFront + k) % 2048 ≠ q.queueRear := by rw [hr]; omega
        rw [List.getElem?_append_left hk', Function.update_noteq hidx]
        exact hget k hk'
      · have hkeq : k = cs.length := by omega
        subst hkeq
        rw [← hr, Function.update_same]
        simp
  · have heq : (q.queueRear + 1) % 2048 = q.queueFront := by rw [hr]; omega
    simp only [enqueue_chunk, pushBounded, MAX_CHUNKS, heq, hfull, if_true, if_false]
    exact ⟨⟨hf, hl, hr, hget⟩, trivial⟩

theorem dequeue_chunk_nil {q : Queue} (h : Holds q []) : dequeue_chunk q = none := by
  obtain ⟨hf, _, hr, _⟩ := h
  simp only [MAX_CHUNKS, List.length_nil, Nat.add_zero] at hf hr
  have : q.queueFront = q.queueRear := by rw [hr]; omega
  simp [dequeue_chunk, this]

theorem dequeue_chunk_cons {q : Queue} {c : Chunk} {cs : List Chunk} (h : Holds q (c :: cs)) :
    ∃ q', dequeue_chunk q = some (c, q') ∧ Holds q' cs := by
  obtain ⟨hf, hl, hr, hget⟩ := h
  simp only [MAX_CHUNKS, List.length_cons] at hf hl hr hget
  have hne : ¬ q.queueFront = q.queueRear := by rw [hr]; omega
  have h0 := hget 0 (by omega)
  simp only [List.getElem?_cons_zero, Nat.add_zero, Option.some.injEq] at h0
  rw [Nat.mod_eq_of_lt hf] at h0
  refine ⟨{ q with queueFront := (q.queueFront + 1) % MAX_CHUNKS }, ?_, ?_⟩
  · simp [dequeue_chunk, hne, h0]
  · refine ⟨by simp only [MAX_CHUNKS]; omega, by simp only [MAX_CHUNKS]; omega, ?_, ?_⟩
    · simp only [MAX_CHUNKS]; rw [hr]; omega
    · intro k hk
      have hk1 := hget (k + 1) (by omega)
      simp only [List.getElem?_cons_succ] at hk1
      rw [hk1]
      simp only [MAX_CHUNKS]
      congr 2
      omega

theorem drain_of_holds : ∀ (fuel : Nat) (cs : List Chunk) (q : Queue), Holds q cs →
    cs.length ≤ fuel → (drain fuel q).1 = cs ∧ Holds (drain fuel q).2 [] := by
  intro fuel
  induction fuel with
  | zero =>
    intro cs q h hlen
    have : cs = [] := List.length_eq_zero.mp (by omega)
    subst this
    exact ⟨rfl, h⟩
  | succ fuel ih =>
    intro cs q h hlen
    cases cs with
    | nil => simp [drain, dequeue_chunk_nil h, h]
    | cons c cs =>
      obtain ⟨q', hq', hh⟩ := dequeue_chunk_cons h
      have := ih cs q' hh (by simpa using hlen)
      simp [drain, hq', this.1, this.2]

theorem queuedRanges_of_holds {q : Queue} {cs : List Chunk} (h : Holds q cs) :
    queuedRanges q = cs :=
  (drain_of_holds MAX_CHUNKS cs q h (Nat.le_of_lt h.2.1)).1

theorem pushBounded_foldl : ∀ (l cs : List Chunk), cs.length < MAX_CHUNKS →
    l.foldl pushBounded cs = cs ++ l.take (MAX_CHUNKS - 1 - cs.length) := by
  intro l
  induction l with
  | nil => intro cs _; simp
  | cons c l ih =>
    intro cs hcs
    simp only [MAX_CHUNKS] at hcs
    by_cases hfull : cs.length + 1 < MAX_CHUNKS
    · have hstep : pushBounded cs c = cs ++ [c] := by simp [pushBounded, hfull]
      simp only [MAX_CHUNKS] at hfull
      rw [List.foldl_cons, hstep, ih _ (by simp [MAX_CHUNKS]; omega)]
      have : MAX_CHUNKS - 1 - cs.length = (MAX_CHUNKS - 1 - (cs ++ [c]).length) + 1 := by
        simp [MAX_CHUNKS]; omega
      rw [this, List.take_succ_cons]
      simp
    · have hstep : pushBounded cs c = cs := by simp [pushBounded, hfull]
      simp only [MAX_CHUNKS] at hfull
      rw [List.foldl_cons, hstep, ih _ (by simp [MAX_CHUNKS]; omega)]
      have : MAX_CHUNKS - 1 - cs.length = 0 := by simp [MAX_CHUNKS]; omega
      simp [this]

/-! ## The loop of the planner -/

theorem numRanges_le (totalSize : Nat) : numRanges totalSize ≤ totalSize := by
  simp only [numRanges, CHUNK_SIZE]
  omega

theorem lt_numRanges_iff (totalSize k : Nat) :
    k * CHUNK_SIZE < totalSize ↔ k < numRanges totalSize := by
  simp only [numRanges, CHUNK_SIZE]
  omega

theorem forChunks_eq {σ : Type} (totalSize : Nat) (body : Nat → σ → σ) :
    ∀ (m k fuel : Nat) (s : σ), numRanges totalSize = k + m → m ≤ fuel →
      forChunks totalSize body fuel (k * CHUNK_SIZE) s
        = some ((List.range' k m).foldl (fun s j => body (j * CHUNK_SIZE) s) s) := by
  intro m
  induction m with
  | zero =>
    intro k fuel s hn _
    have hge : ¬ k * CHUNK_SIZE < totalSize := by
      rw [lt_numRanges_iff]; omega
    rw [forChunks.eq_def]
    simp [hge]
  | succ m ih =>
    intro k fuel s hn hfuel
    have hlt : k * CHUNK_SIZE < totalSize := by
      rw [lt_numRanges_iff]; omega
    obtain ⟨fuel, rfl⟩ : ∃ f, fuel = f + 1 := ⟨fuel - 1, by omega⟩
    rw [forChunks]
    simp only [hlt, if_true]
    have hstep : k * CHUNK_SIZE + CHUNK_SIZE = (k + 1) * CHUNK_SIZE := by ring
    rw [hstep, ih (k + 1) fuel _ (by omega) (by omega)]
    simp [List.range'_succ]

theorem forChunks_main {σ : Type} (totalSize : Nat) (body : Nat → σ → σ) (s : σ) :
    forChunks totalSize body totalSize 0 s
      = some ((List.range (numRanges totalSize)).foldl (fun s j => body (j * CHUNK_SIZE) s) s) := by
  have h := forChunks_eq totalSize body (numRanges totalSize) 0 totalSize s (by simp)
    (numRanges_le totalSize)
  rw [Nat.zero_mul] at h
  rw [h, List.range_eq_range']

theorem chunkEnd_eq (totalSize j : Nat) :
    (⟨j * CHUNK_SIZE, chunkEnd totalSize (j * CHUNK_SIZE)⟩ : Chunk) = rangeOf totalSize j := by
  simp only [rangeOf, chunkEnd, CHUNK_SIZE, Chunk.mk.injEq, true_and]
  split <;> omega

theorem index_mul (j : Nat) : j * CHUNK_SIZE / CHUNK_SIZE = j := by
  simp [CHUNK_SIZE]

/-- The ranges the planner wants queued: those of the indices whose byte is not 1. -/
theorem planBody_foldl (totalSize : Nat) (bitmap : Nat → Nat) :
    ∀ (js : List Nat) (q : Queue) (cs : List Chunk), Holds q cs →
      Holds (js.foldl (fun q j => planBody totalSize bitmap (j * CHUNK_SIZE) q) q)
        (((js.filter (fun j => decide (bitmap j ≠ 1))).map (rangeOf totalSize)).foldl
          pushBounded cs) := by
  intro js
  induction js with
  | nil => intro q cs h; simpa using h
  | cons j js ih =>
    intro q cs h
    rw [List.foldl_cons]
    by_cases hb : bitmap j = 1
    · have hbody : planBody totalSize bitmap (j * CHUNK_SIZE) q = q := by
        simp [planBody, index_mul, hb]
      rw [hbody]
      simpa [List.filter_cons, hb] using ih q cs h
    · have hbody : planBody totalSize bitmap (j * CHUNK_SIZE) q
          = (enqueue_chunk q (j * CHUNK_SIZE) (chunkEnd totalSize (j * CHUNK_SIZE))).1 := by
        simp [planBody, index_mul, hb]
      have hq := (enqueue_chunk_of_holds h (j * CHUNK_SIZE)
        (chunkEnd totalSize (j * CHUNK_SIZE))).1
      rw [chunkEnd_eq] at hq
      rw [hbody]
      simpa [List.filter_cons, hb] using ih _ _ hq

theorem planLoop_spec (totalSize : Nat) (bitmap : Nat → Nat) :
    ∃ q, planLoop totalSize bitmap = some q ∧
      Holds q ((unflaggedRanges totalSize bitmap).take (MAX_CHUNKS - 1)) := by
  refine ⟨_, forChunks_main totalSize _ emptyQueue, ?_⟩
  have h := planBody_foldl totalSize bitmap (List.range (numRanges totalSize)) emptyQueue []
    holds_emptyQueue
  rw [pushBounded_foldl _ _ holds_emptyQueue.2.1] at h
  rw [List.nil_append, List.length_nil, Nat.sub_zero] at h
  exact h

theorem unflaggedRanges_length_le (totalSize : Nat) (bitmap : Nat → Nat) :
    (unflaggedRanges totalSize bitmap).length ≤ numRanges totalSize := by
  simp only [unflaggedRanges, List.length_map]
  exact (List.length_filter_le _ _).trans (by simp)

theorem planLoop_queued (totalSize : Nat) (bitmap : Nat → Nat)
    (hcap : numRanges totalSize ≤ MAX_CHUNKS - 1) :
    ∃ q, planLoop totalSize bitmap = some q ∧ Holds q (unflaggedRanges totalSize bitmap) ∧
      queuedRanges q = unflaggedRanges totalSize bitmap := by
  obtain ⟨q, hq, hh⟩ := planLoop_spec totalSize bitmap
  rw [List.take_of_length_le ((unflaggedRanges_length_le totalSize bitmap).trans hcap)] at hh
  exact ⟨q, hq, hh, queuedRanges_of_holds hh⟩

theorem unflaggedRanges_zero (totalSize : Nat) (bitmap : Nat → Nat)
    (hcap : numRanges totalSize ≤ MAX_CHUNKS) (hzero : ∀ i, i < MAX_CHUNKS → bitmap i = 0) :
    unflaggedRanges totalSize bitmap = (List.range (numRanges totalSize)).map (rangeOf totalSize) := by
  simp only [unflaggedRanges]
  congr 1
  rw [List.filter_eq_self]
  intro i hi
  have hi' : i < MAX_CHUNKS := lt_of_lt_of_le (List.mem_range.mp hi) hcap
  simp [hzero i hi']

theorem rangeOf_start (totalSize i : Nat) : (rangeOf totalSize i).start = i * CHUNK_SIZE := rfl

theorem rangeOf_end (totalSize i : Nat) :
    (rangeOf totalSize i).end_ = min ((i + 1) * CHUNK_SIZE) totalSize - 1 := rfl

theorem unflaggedRanges_pairwise (totalSize : Nat) (bitmap : Nat → Nat) :
    (unflaggedRanges totalSize bitmap).Pairwise (fun a b => a.end_ < b.start) := by
  simp only [unflaggedRanges]
  rw [List.pairwise_map]
  refine List.Pairwise.imp ?_ ((List.pairwise_lt_range _).filter _)
  intro a b hab
  simp only [rangeOf_start, rangeOf_end, CHUNK_SIZE]
  omega

theorem mem_unflaggedRanges (totalSize : Nat) (bitmap : Nat → Nat) (c : Chunk) :
    c ∈ unflaggedRanges totalSize bitmap ↔
      ∃ i, i < numRanges totalSize ∧ bitmap i ≠ 1 ∧ c = rangeOf totalSize i := by
  simp only [unflaggedRanges, List.mem_map, List.mem_filter, List.mem_range, decide_eq_true_eq]
  constructor
  · rintro ⟨i, ⟨hi, hb⟩, rfl⟩; exact ⟨i, hi, hb, rfl⟩
  · rintro ⟨i, hi, hb, rfl⟩; exact ⟨i, ⟨hi, hb⟩, rfl⟩

theorem rangeOf_injective (totalSize : Nat) {i j : Nat}
    (h : rangeOf totalSize i = rangeOf totalSize j) : i = j := by
  have := congrArg Chunk.start h
  simp only [rangeOf_start, CHUNK_SIZE] at this
  omega

theorem rangeOf_valid (totalSize i : Nat) (hi : i < numRanges totalSize) :
    (rangeOf totalSize i).start ≤ (rangeOf totalSize i).end_ := by
  have := (lt_numRanges_iff totalSize i).mpr hi
  simp only [rangeOf_start, rangeOf_end, CHUNK_SIZE] at *
  omega

theorem covered_iff (totalSize x : Nat) :
    x < totalSize ↔ ∃ i, i < numRanges totalSize ∧
      (rangeOf totalSize i).start ≤ x ∧ x ≤ (rangeOf totalSize i).end_ := by
  constructor
  · intro hx
    refine ⟨x / CHUNK_SIZE, ?_, ?_, ?_⟩
    · simp only [numRanges, CHUNK_SIZE]; omega
    · simp only [rangeOf_start, CHUNK_SIZE]; omega
    · simp only [rangeOf_end, CHUNK_SIZE]; omega
  · rintro ⟨i, hi, _, h2⟩
    have := (lt_numRanges_iff totalSize i).mpr hi
    simp only [rangeOf_end, CHUNK_SIZE] at *
    omega

theorem take_unflagged_zero (totalSize : Nat) (bitmap : Nat → Nat)
    (hcap : numRanges totalSize ≤ MAX_CHUNKS) (hzero : ∀ i, i < MAX_CHUNKS → bitmap i = 0) :
    (unflaggedRanges totalSize bitmap).take (MAX_CHUNKS - 1)
      = (List.range (min (MAX_CHUNKS - 1) (numRanges totalSize))).map (rangeOf totalSize) := by
  rw [unflaggedRanges_zero totalSize bitmap hcap hzero, ← List.map_take, List.take_range]

theorem enqueueAll_of_holds : ∀ (l : List Chunk) (q : Queue) (cs : List Chunk), Holds q cs →
    Holds (enqueueAll q l).1 (l.foldl pushBounded cs) ∧
    (enqueueAll q l).2
      = (List.range l.length).map (fun k => if cs.length + k + 1 < MAX_CHUNKS then 1 else 0) := by
  intro l
  induction l with
  | nil => intro q cs h; exact ⟨h, rfl⟩
  | cons c l ih =>
    intro q cs h
    obtain ⟨hq, hcode⟩ := enqueue_chunk_of_holds h c.start c.end_
    obtain ⟨ih1, ih2⟩ := ih _ _ hq
    refine ⟨ih1, ?_⟩
    simp only [enqueueAll, List.length_cons, List.range_succ_eq_map, List.map_cons, List.map_map]
    rw [hcode, ih2]
    refine congrArg₂ _ rfl (List.map_congr_left ?_)
    intro k _
    have hl := h.2.1
    simp only [pushBounded, MAX_CHUNKS, Function.comp] at hl ⊢
    by_cases hfull : cs.length + 1 < 2048
    · have hiff : (cs.length + 1 + k + 1 < 2048) ↔ (cs.length + (k + 1) + 1 < 2048) := by omega
      simp only [hfull, if_true, List.length_append, List.length_singleton, hiff]
    · have h1 : ¬ (cs.length + k + 1 < 2048) := by omega
      have h2 : ¬ (cs.length + (k + 1) + 1 < 2048) := by omega
      simp only [hfull, if_false, h1, h2]

theorem codes_full (n : Nat) :
    (List.range (n + 1)).map (fun k => if 0 + k + 1 < n + 1 then 1 else 0)
      = List.replicate n 1 ++ [0] := by
  rw [List.range_succ, List.map_append]
  congr 1
  · rw [List.eq_replicate_iff]
    refine ⟨by simp, ?_⟩
    intro b hb
    simp only [List.mem_map, List.mem_range] at hb
    obtain ⟨k, hk, rfl⟩ := hb
    simp [hk]
  · simp

theorem numRanges_2GiB : numRanges 2147483648 = 2048 := by decide

theorem recordBody_foldl (totalSize : Nat) : ∀ (js : List Nat) (acc : List (Nat × Chunk)),
    js.foldl (fun acc j => recordBody totalSize (j * CHUNK_SIZE) acc) acc
      = acc ++ js.map (fun j => (j, rangeOf totalSize j)) := by
  intro js
  induction js with
  | nil => intro acc; simp
  | cons j js ih =>
    intro acc
    rw [List.foldl_cons, ih]
    simp [recordBody, index_mul, chunkEnd_eq]

theorem plannedRanges_eq (totalSize : Nat) :
    plannedRanges totalSize
      = some ((List.range (numRanges totalSize)).map (fun j => (j, rangeOf totalSize j))) := by
  rw [plannedRanges, forChunks_main, recordBody_foldl, List.nil_append]

theorem rangeOf_index (totalSize i : Nat) : (rangeOf totalSize i).index = i := by
  simp [Chunk.index, rangeOf_start, index_mul]

theorem baselineBody_foldl (totalSize : Nat) (bitmap : Nat → Nat) :
    ∀ (js : List Nat) (td : Nat),
      js.foldl (fun td j => baselineBody totalSize bitmap (j * CHUNK_SIZE) td) td
        = td + ((js.filter (fun j => decide (bitmap j = 1))).map
            (fun j => (rangeOf totalSize j).len)).sum := by
  intro js
  induction js with
  | nil => intro td; simp
  | cons j js ih =>
    intro td
    rw [List.foldl_cons, ih]
    have hlen : chunkEnd totalSize (j * CHUNK_SIZE) - j * CHUNK_SIZE + 1
        = (rangeOf totalSize j).len := congrArg Chunk.len (chunkEnd_eq totalSize j)
    by_cases hb : bitmap j = 1
    · simp [baselineBody, index_mul, hb, List.filter_cons, hlen, Nat.add_assoc]
    · simp [baselineBody, index_mul, hb, List.filter_cons]

theorem baselineLoop_eq (totalSize : Nat) (bitmap : Nat → Nat) :
    baselineLoop totalSize bitmap = some (flaggedBytes totalSize bitmap) := by
  rw [baselineLoop, forChunks_main, baselineBody_foldl, Nat.zero_add, flaggedBytes]

theorem rangeOf_len (totalSize i : Nat) (hi : i < numRanges totalSize) :
    (rangeOf totalSize i).len = min ((i + 1) * CHUNK_SIZE) totalSize - i * CHUNK_SIZE := by
  have := (lt_numRanges_iff totalSize i).mpr hi
  simp only [Chunk.len, rangeOf_start, rangeOf_end, CHUNK_SIZE] at *
  omega

theorem totalLen_firstRanges (totalSize : Nat) : ∀ k, k ≤ numRanges totalSize →
    totalLen ((List.range k).map (rangeOf totalSize)) = min (k * CHUNK_SIZE) totalSize := by
  intro k
  induction k with
  | zero => intro _; simp [totalLen]
  | succ k ih =>
    intro hk
    have hlt := (lt_numRanges_iff totalSize k).mpr (by omega)
    have ih' := ih (by omega)
    simp only [totalLen] at ih' ⊢
    rw [List.range_succ, List.map_append, List.map_append, List.sum_append, ih']
    simp only [List.map_cons, List.map_nil, List.sum_cons, List.sum_nil, Nat.add_zero]
    rw [rangeOf_len totalSize k (by omega)]
    simp only [CHUNK_SIZE] at *
    omega

theorem totalLen_all (totalSize : Nat) :
    totalLen ((List.range (numRanges totalSize)).map (rangeOf totalSize)) = totalSize := by
  rw [totalLen_firstRanges totalSize _ (Nat.le_refl _)]
  simp only [numRanges, CHUNK_SIZE]
  omega

theorem sum_filter_add {α : Type} (f : α → Nat) (p : α → Prop) [DecidablePred p] :
    ∀ l : List α, ((l.filter (fun a => decide (p a))).map f).sum
      + ((l.filter (fun a => decide (¬ p a))).map f).sum = (l.map f).sum := by
  intro l
  induction l with
  | nil => simp
  | cons a l ih =>
    by_cases h : p a
    · simp [List.filter_cons, h, ← ih]; omega
    · simp [List.filter_cons, h, ← ih]; omega

theorem flaggedBytes_add_unflagged (totalSize : Nat) (bitmap : Nat → Nat) :
    flaggedBytes totalSize bitmap + totalLen (unflaggedRanges totalSize bitmap) = totalSize := by
  have h := sum_filter_add (fun i => (rangeOf totalSize i).len) (fun i => bitmap i = 1)
    (List.range (numRanges totalSize))
  have hall := totalLen_all totalSize
  simp only [totalLen, List.map_map] at hall
  simp only [flaggedBytes, totalLen, unflaggedRanges, List.map_map]
  exact h.trans hall

theorem startup_spec (totalSize : Nat) (bitmap : Nat → Nat) (oldFile : List Nat) :
    ∃ w, startup totalSize bitmap oldFile = some w ∧
      Holds w.queue ((unflaggedRanges totalSize bitmap).take (MAX_CHUNKS - 1)) ∧
      w.totalDownloaded = flaggedBytes totalSize bitmap ∧ w.totalSize = totalSize ∧
      w.completed_chunks = bitmap ∧ w.file = fileSetup totalSize oldFile ∧ w.trace = [] := by
  obtain ⟨q, hq, hh⟩ := planLoop_spec totalSize bitmap
  refine ⟨{ queue := q, totalDownloaded := flaggedBytes totalSize bitmap, totalSize := totalSize,
            completed_chunks := bitmap, file := fileSetup totalSize oldFile, trace := [] },
    ?_, hh, rfl, rfl, rfl, rfl, rfl⟩
  simp [startup, baselineLoop_eq, hq]

/-! ## The worker -/

theorem deliver_spec : ∀ (spans : List (List Nat)) (pos : Nat) (w : World),
    (deliver spans pos w).queue = w.queue ∧
    (deliver spans pos w).totalSize = w.totalSize ∧
    (deliver spans pos w).completed_chunks = w.completed_chunks ∧
    (deliver spans pos w).trace = w.trace ∧
    (deliver spans pos w).totalDownloaded = w.totalDownloaded + (spans.map List.length).sum := by
  intro spans
  induction spans with
  | nil => intro pos w; simp [deliver]
  | cons span rest ih =>
    intro pos w
    obtain ⟨h1, h2, h3, h4, h5⟩ := ih (pos + span.length) (write_data w pos span)
    refine ⟨h1, h2, h3, h4, ?_⟩
    rw [deliver, h5]
    simp only [write_data, List.map_cons, List.sum_cons]
    omega

theorem deliver_withQueue (q : Queue) : ∀ (spans : List (List Nat)) (pos : Nat) (w : World),
    deliver spans pos (w.withQueue q) = (deliver spans pos w).withQueue q := by
  intro spans
  induction spans with
  | nil => intro pos w; rfl
  | cons span rest ih =>
    intro pos w
    exact ih (pos + span.length) (write_data w pos span)

theorem performFetch_withQueue (q : Queue) (c : Chunk) (spans : List (List Nat)) (w : World) :
    performFetch c spans (w.withQueue q) = (performFetch c spans w).withQueue q :=
  deliver_withQueue q spans c.start { w with trace := w.trace ++ [Event.perform c] }

theorem onSuccess_withQueue (q : Queue) (c : Chunk) (w : World) :
    onSuccess c (w.withQueue q) = (onSuccess c w).withQueue q := rfl

theorem onFailure_withQueue (q : Queue) (c : Chunk) (r : Nat) (w : World) :
    onFailure c r (w.withQueue q) = (onFailure c r w).withQueue q := by
  unfold onFailure
  split <;> rfl

/-- The retry loop does not read the queue. -/
theorem retryLoop_withQueue (oracle : Oracle) (c : Chunk) (q : Queue) : ∀ (r : Nat) (w : World),
    retryLoop oracle c r (w.withQueue q) = (retryLoop oracle c r w).withQueue q := by
  intro r
  induction r with
  | zero => intro w; rfl
  | succ r ih =>
    intro w
    simp only [retryLoop]
    rcases oracle c (MAX_RETRIES - (r + 1)) with _ | _ | ⟨ok, spans⟩
    · exact ih w
    · exact ih w
    · cases ok
      · simp only [Bool.false_eq_true, if_false]
        rw [performFetch_withQueue, onFailure_withQueue, ih]
      · simp only [if_true]
        rw [performFetch_withQueue, onSuccess_withQueue]

theorem withQueue_queue (w : World) (q : Queue) : (w.withQueue q).queue = q := rfl

theorem withQueue_withQueue (w : World) (q q' : Queue) :
    (w.withQueue q).withQueue q' = w.withQueue q' := rfl

theorem processAll_withQueue (oracle : Oracle) (q : Queue) : ∀ (cs : List Chunk) (w : World),
    processAll oracle cs (w.withQueue q) = (processAll oracle cs w).withQueue q := by
  intro cs
  induction cs with
  | nil => intro w; rfl
  | cons c cs ih =>
    intro w
    simp only [processAll, List.foldl_cons] at ih ⊢
    rw [retryLoop_withQueue, ih]

/-- One worker empties the queue: it runs the retry loop for each queued range in turn
and stops at the first empty dequeue. -/
theorem workerLoop_of_holds (oracle : Oracle) : ∀ (fuel : Nat) (cs : List Chunk) (w : World),
    Holds w.queue cs → cs.length < fuel →
    ∃ q, Holds q [] ∧ workerLoop oracle fuel w = some ((processAll oracle cs w).withQueue q) := by
  intro fuel
  induction fuel with
  | zero => intro cs w _ h; omega
  | succ fuel ih =>
    intro cs w hh hlen
    cases cs with
    | nil =>
      refine ⟨w.queue, hh, ?_⟩
      simp only [workerLoop, dequeue_chunk_nil hh]
      rfl
    | cons c cs =>
      obtain ⟨q', hq', hh'⟩ := dequeue_chunk_cons hh
      have hh'' : Holds (retryLoop oracle c MAX_RETRIES (w.withQueue q')).queue cs := by
        rw [retryLoop_withQueue]; exact hh'
      obtain ⟨q, hq, hrun⟩ := ih cs _ hh'' (by simpa using hlen)
      refine ⟨q, hq, ?_⟩
      simp only [workerLoop, hq', hrun]
      rw [retryLoop_withQueue, processAll_withQueue]
      rfl

theorem download_worker_of_holds (oracle : Oracle) (cs : List Chunk) (w : World)
    (h : Holds w.queue cs) :
    ∃ q, Holds q [] ∧ download_worker oracle w = some ((processAll oracle cs w).withQueue q) :=
  workerLoop_of_holds oracle MAX_CHUNKS cs w h h.2.1

/-- With at least one worker the run processes every queued range once; workers that
start on an empty queue leave the state as it is. -/
theorem run_workers_of_holds (oracle : Oracle) : ∀ (n : Nat) (cs : List Chunk) (w : World),
    Holds w.queue cs → ∃ q, Holds q [] ∧
      run_workers oracle (n + 1) w = some ((processAll oracle cs w).withQueue q) := by
  intro n
  induction n with
  | zero =>
    intro cs w h
    obtain ⟨q, hq, hrun⟩ := download_worker_of_holds oracle cs w h
    exact ⟨q, hq, by simp [run_workers, hrun]⟩
  | succ n ih =>
    intro cs w h
    obtain ⟨q, hq, hrun⟩ := download_worker_of_holds oracle cs w h
    obtain ⟨q', hq', hrun'⟩ := ih [] ((processAll oracle cs w).withQueue q) hq
    refine ⟨q', hq', ?_⟩
    rw [run_workers, hrun, Option.some_bind, hrun']
    rfl

theorem performFetch_spec (c : Chunk) (spans : List (List Nat)) (w : World) :
    (performFetch c spans w).queue = w.queue ∧
    (performFetch c spans w).totalSize = w.totalSize ∧
    (performFetch c spans w).completed_chunks = w.completed_chunks ∧
    (performFetch c spans w).trace = w.trace ++ [Event.perform c] ∧
    (performFetch c spans w).totalDownloaded
      = w.totalDownloaded + (spans.map List.length).sum :=
  deliver_spec spans c.start { w with trace := w.trace ++ [Event.perform c] }

theorem performFetch_trace (c : Chunk) (spans : List (List Nat)) (w : World) :
    (performFetch c spans w).trace = w.trace ++ [Event.perform c] :=
  (performFetch_spec c spans w).2.2.2.1

theorem performFetch_completed (c : Chunk) (spans : List (List Nat)) (w : World) :
    (performFetch c spans w).completed_chunks = w.completed_chunks :=
  (performFetch_spec c spans w).2.2.1

theorem performFetch_total (c : Chunk) (spans : List (List Nat)) (w : World) :
    (performFetch c spans w).totalDownloaded
      = w.totalDownloaded + (spans.map List.length).sum :=
  (performFetch_spec c spans w).2.2.2.2

theorem onFailure_trace (c : Chunk) (r : Nat) (w : World) :
    (onFailure c r w).trace = w.trace ++ (if r = 0 then [Event.report c] else []) := by
  unfold onFailure; split <;> simp

theorem onFailure_completed (c : Chunk) (r : Nat) (w : World) :
    (onFailure c r w).completed_chunks = w.completed_chunks := by
  unfold onFailure; split <;> rfl

theorem onFailure_total (c : Chunk) (r : Nat) (w : World) :
    (onFailure c r w).totalDownloaded = w.totalDownloaded := by
  unfold onFailure; split <;> rfl

theorem onSuccess_completed (c : Chunk) (w : World) :
    (onSuccess c w).completed_chunks = Function.update w.completed_chunks c.index 1 := rfl

theorem onSuccess_total (c : Chunk) (w : World) :
    (onSuccess c w).totalDownloaded = w.totalDownloaded := rfl

theorem attempt_failed_cases (a : Attempt) (h1 : a.fetched = true) (h2 : a.ok = false) :
    ∃ spans, a = Attempt.performed false spans := by
  cases a with
  | initFailed => simp [Attempt.fetched] at h1
  | openFailed => simp [Attempt.fetched] at h1
  | performed ok spans =>
    simp only [Attempt.ok] at h2
    subst h2
    exact ⟨spans, rfl⟩

theorem attempt_ok_cases (a : Attempt) (h : a.ok = true) :
    ∃ spans, a = Attempt.performed true spans := by
  cases a with
  | initFailed => simp [Attempt.ok] at h
  | openFailed => simp [Attempt.ok] at h
  | performed ok spans =>
    simp only [Attempt.ok] at h
    subst h
    exact ⟨spans, rfl⟩

/-- One pass of the retry loop whose attempt is not successful adds the bytes of the
attempt to the counter and leaves the flags alone. -/
theorem retryLoop_step_failed (oracle : Oracle) (c : Chunk) (r k : Nat) (w : World)
    (hk : MAX_RETRIES - (r + 1) = k) (h : (oracle c k).ok = false) :
    ∃ w1, retryLoop oracle c (r + 1) w = retryLoop oracle c r w1 ∧
      w1.totalDownloaded = w.totalDownloaded + (oracle c k).bytes ∧
      w1.completed_chunks = w.completed_chunks := by
  subst hk
  simp only [retryLoop]
  rcases hc : oracle c (MAX_RETRIES - (r + 1)) with _ | _ | ⟨ok, spans⟩
  · exact ⟨w, rfl, by simp [Attempt.bytes], rfl⟩
  · exact ⟨w, rfl, by simp [Attempt.bytes], rfl⟩
  · rw [hc] at h
    simp only [Attempt.ok] at h
    subst h
    refine ⟨onFailure c r (performFetch c spans w), by simp, ?_, ?_⟩
    · rw [onFailure_total, performFetch_total]; rfl
    · rw [onFailure_completed, performFetch_completed]

/-- One pass of the retry loop whose attempt is successful ends the loop: the bytes of
the attempt are added to the counter and the flag of the range is set. -/
theorem retryLoop_step_ok (oracle : Oracle) (c : Chunk) (r k : Nat) (w : World)
    (hk : MAX_RETRIES - (r + 1) = k) (h : (oracle c k).ok = true) :
    (retryLoop oracle c (r + 1) w).totalDownloaded
      = w.totalDownloaded + (oracle c k).bytes ∧
    (retryLoop oracle c (r + 1) w).completed_chunks
      = Function.update w.completed_chunks c.index 1 := by
  subst hk
  obtain ⟨spans, hc⟩ := attempt_ok_cases _ h
  simp only [retryLoop, hc, if_true, onSuccess_total, onSuccess_completed, performFetch_total,
    performFetch_completed, Attempt.bytes]
  exact ⟨trivial, trivial⟩

theorem failedBytes_eq (oracle : Oracle) (c : Chunk) :
    failedBytes oracle c =
      if (oracle c 0).ok then 0
      else (oracle c 0).bytes + (if (oracle c 1).ok then 0
      else (oracle c 1).bytes + (if (oracle c 2).ok then 0 else (oracle c 2).bytes)) := by
  have hrange : List.range MAX_RETRIES = [0, 1, 2] := by decide
  simp only [failedBytes, hrange, List.takeWhile]
  cases (oracle c 0).ok <;> cases (oracle c 1).ok <;> cases (oracle c 2).ok <;> simp

/-- The retry loop on a range that ends with a successful fetch of exactly its bytes. -/
theorem retryLoop_success (oracle : Oracle) (c : Chunk) (w : World)
    (h : EndsWithExactSuccess oracle c) :
    (retryLoop oracle c MAX_RETRIES w).totalDownloaded
      = w.totalDownloaded + c.len + failedBytes oracle c ∧
    (retryLoop oracle c MAX_RETRIES w).completed_chunks
      = Function.update w.completed_chunks c.index 1 := by
  obtain ⟨k, hk, hbefore, hok, hbytes⟩ := h
  rw [failedBytes_eq]
  simp only [MAX_RETRIES] at hk
  have h3 : MAX_RETRIES = 2 + 1 := rfl
  interval_cases k
  · obtain ⟨e1, e2⟩ := retryLoop_step_ok oracle c 2 0 w rfl hok
    rw [h3, e1, e2, hbytes]
    simp only [hok, if_true]
    exact ⟨by omega, trivial⟩
  · have hf0 : (oracle c 0).ok = false := hbefore 0 (by decide)
    obtain ⟨w1, e0, t0, c0⟩ := retryLoop_step_failed oracle c 2 0 w rfl hf0
    obtain ⟨e1, e2⟩ := retryLoop_step_ok oracle c 1 1 w1 rfl hok
    rw [h3, e0, e1, e2, t0, c0, hbytes]
    simp only [hf0, hok, if_true, if_false, Bool.false_eq_true]
    exact ⟨by omega, trivial⟩
  · have hf0 : (oracle c 0).ok = false := hbefore 0 (by decide)
    have hf1 : (oracle c 1).ok = false := hbefore 1 (by decide)
    obtain ⟨w1, e0, t0, c0⟩ := retryLoop_step_failed oracle c 2 0 w rfl hf0
    obtain ⟨w2, e1, t1, c1⟩ := retryLoop_step_failed oracle c 1 1 w1 rfl hf1
    obtain ⟨e2, e3⟩ := retryLoop_step_ok oracle c 0 2 w2 rfl hok
    rw [h3, e0, e1, e2, e3, t1, c1, t0, c0, hbytes]
    simp only [hf0, hf1, hok, if_true, if_false, Bool.false_eq_true]
    exact ⟨by omega, trivial⟩

theorem processAll_success (oracle : Oracle) : ∀ (cs : List Chunk) (w : World),
    (∀ c ∈ cs, EndsWithExactSuccess oracle c) →
    (processAll oracle cs w).totalDownloaded
      = w.totalDownloaded + totalLen cs + (cs.map (failedBytes oracle)).sum ∧
    ∀ i, (processAll oracle cs w).completed_chunks i
      = if i ∈ cs.map Chunk.index then 1 else w.completed_chunks i := by
  intro cs
  induction cs with
  | nil => intro w _; simp [processAll, totalLen]
  | cons c cs ih =>
    intro w h
    obtain ⟨e1, e2⟩ := retryLoop_success oracle c w (h c (List.mem_cons_self _ _))
    obtain ⟨i1, i2⟩ := ih (retryLoop oracle c MAX_RETRIES w)
      (fun c' hc' => h c' (List.mem_cons_of_mem _ hc'))
    have hstep : processAll oracle (c :: cs) w
        = processAll oracle cs (retryLoop oracle c MAX_RETRIES w) := rfl
    rw [hstep]
    constructor
    · rw [i1, e1]
      simp only [totalLen, List.map_cons, List.sum_cons]
      omega
    · intro i
      rw [i2, e2]
      by_cases hi : i = c.index
      · subst hi; simp
      · by_cases hm : i ∈ cs.map Chunk.index
        · simp [hm]
        · simp [hm, hi, Function.update_noteq hi]

theorem withQueue_completed (w : World) (q : Queue) :
    (w.withQueue q).completed_chunks = w.completed_chunks := rfl

theorem withQueue_total (w : World) (q : Queue) :
    (w.withQueue q).totalDownloaded = w.totalDownloaded := rfl

theorem determine_thread_count_pos (n : Int) : ∃ k, determine_thread_count n = k + 1 := by
  unfold determine_thread_count
  split_ifs
  exacts [⟨1, rfl⟩, ⟨3, rfl⟩, ⟨7, rfl⟩, ⟨11, rfl⟩, ⟨15, rfl⟩]

theorem failedBytes_zero (oracle : Oracle) (c : Chunk)
    (h : ∀ k, k < MAX_RETRIES → (oracle c k).ok = false → (oracle c k).bytes = 0) :
    failedBytes oracle c = 0 := by
  rw [failedBytes_eq]
  have h0 := h 0 (by decide)
  have h1 := h 1 (by decide)
  have h2 := h 2 (by decide)
  cases hk0 : (oracle c 0).ok <;> cases hk1 : (oracle c 1).ok <;>
    cases hk2 : (oracle c 2).ok <;> simp_all

/-- The state at the end of a run for an object of at most 2047 ranges in which every
queued range ends with a successful fetch of exactly its bytes. -/
theorem run_success (totalSize : Nat) (bitmap : Nat → Nat) (oldFile : List Nat)
    (oracle : Oracle) (hcap : numRanges totalSize ≤ 2047)
    (hok : ∀ c ∈ unflaggedRanges totalSize bitmap, EndsWithExactSuccess oracle c) :
    ∃ w0 w, startup totalSize bitmap oldFile = some w0 ∧
      queuedRanges w0.queue = unflaggedRanges totalSize bitmap ∧
      run_workers oracle (determine_thread_count totalSize) w0 = some w ∧
      (∀ i, i < numRanges totalSize → w.completed_chunks i = 1) ∧
      w.totalDownloaded
        = totalSize + ((unflaggedRanges totalSize bitmap).map (failedBytes oracle)).sum := by
  obtain ⟨w0, hw0, hh, htd, _, hbm, _, _⟩ := startup_spec totalSize bitmap oldFile
  have hcap' : numRanges totalSize ≤ MAX_CHUNKS - 1 := hcap
  rw [List.take_of_length_le ((unflaggedRanges_length_le totalSize bitmap).trans hcap')] at hh
  obtain ⟨n, hn⟩ := determine_thread_count_pos totalSize
  obtain ⟨q, _, hrun⟩ := run_workers_of_holds oracle n _ w0 hh
  have hrun' : run_workers oracle (determine_thread_count totalSize) w0 = some ((processAll oracle (unflaggedRanges totalSize bitmap) w0).withQueue q) := by
    rw [hn]; exact hrun
  obtain ⟨p1, p2⟩ := processAll_success oracle _ w0 hok
  refine ⟨w0, _, hw0, queuedRanges_of_holds hh, hrun', ?_, ?_⟩
  · intro i hi
    rw [withQueue_completed, p2, hbm]
    by_cases hb : bitmap i = 1
    · rw [hb]; exact ite_self 1
    · have : i ∈ (unflaggedRanges totalSize bitmap).map Chunk.index :=
        List.mem_map.mpr ⟨rangeOf totalSize i,
          (mem_unflaggedRanges totalSize bitmap _).mpr ⟨i, hi, hb, rfl⟩, rangeOf_index totalSize i⟩
      rw [if_pos this]
  · rw [withQueue_total, p1, htd, flaggedBytes_add_unflagged]

/-! ## The reporter and the end of `main` -/

/-- The reporter never leaves its loop while the counter stays below `totalSize`. -/
theorem show_progress_stuck (w : World) (h : w.totalDownloaded < w.totalSize) :
    ∀ fuel, show_progress w fuel = none := by
  intro fuel
  induction fuel with
  | zero => rfl
  | succ fuel ih =>
    have h1 : ¬ w.totalSize ≤ 0 := by omega
    have h2 : ¬ w.totalDownloaded ≥ w.totalSize := by omega
    simp [show_progress, h1, h2, ih]

/-- The reporter leaves its loop at the first pass once the counter has reached
`totalSize > 0`. -/
theorem show_progress_done (w : World) (h0 : 0 < w.totalSize)
    (h : w.totalDownloaded ≥ w.totalSize) (fuel : Nat) :
    show_progress w (fuel + 1) = some 1 := by
  have h1 : ¬ w.totalSize ≤ 0 := by omega
  simp [show_progress, h1, h]

theorem fileSetup_eq (totalSize : Nat) (oldFile : List Nat) (h : 0 < totalSize) :
    fileSetup totalSize oldFile = List.replicate totalSize 0 := by
  obtain ⟨n, rfl⟩ : ∃ n, totalSize = n + 1 := ⟨totalSize - 1, by omega⟩
  simp [fileSetup, writeAt, List.replicate_succ']

/-- For every object the destination file is all zeros once `main` has set it up,
whatever it held before. -/
theorem startup_file (totalSize : Nat) (bitmap : Nat → Nat) (oldFile : List Nat) (w : World)
    (hpos : 0 < totalSize) (h : startup totalSize bitmap oldFile = some w) :
    w.file = List.replicate totalSize 0 := by
  obtain ⟨w', hw', _, _, _, _, hfile, _⟩ := startup_spec totalSize bitmap oldFile
  rw [h] at hw'
  cases hw'
  rw [hfile, fileSetup_eq totalSize oldFile hpos]

/-! ## The claims -/

/-- C1, counterexample: for `totalSize = 2147483648` (2048 ranges, every bitmap index in
bounds) and the all-incomplete bitmap the planning loop leaves 2047 ranges in the queue
and the offset 2147483647, which is below `totalSize`, lies in none of them. -/
theorem C1_counterexample_2GiB :
    ∃ q, planLoop 2147483648 (fun _ => 0) = some q ∧ (queuedRanges q).length = 2047 ∧
      ¬ ∃ c ∈ queuedRanges q, c.start ≤ 2147483647 ∧ 2147483647 ≤ c.end_ := by
  obtain ⟨q, hq, hh⟩ := planLoop_spec 2147483648 (fun _ => 0)
  have hr := queuedRanges_of_holds hh
  rw [take_unflagged_zero _ _ (by rw [numRanges_2GiB]; decide) (fun _ _ => rfl),
    numRanges_2GiB] at hr
  have hmin : min (MAX_CHUNKS - 1) 2048 = 2047 := by decide
  rw [hmin] at hr
  refine ⟨q, hq, by simp [hr], ?_⟩
  rw [hr]
  rintro ⟨c, hc, -, h2⟩
  simp only [List.mem_map, List.mem_range] at hc
  obtain ⟨i, hi, rfl⟩ := hc
  simp only [rangeOf_end, CHUNK_SIZE] at h2
  omega

/-- C1, amended: for an object of at most 2047 ranges and an all-incomplete bitmap, the
ranges the planning loop leaves in the queue are the ranges of the indices
`0 .. numRanges - 1`; each is a non-empty inclusive interval, every range ends before
the next ones start (so they are pairwise disjoint), and a byte offset lies in one of
them if and only if it is below `totalSize`. -/
theorem C1_plan_partitions_object (totalSize : Nat) (bitmap : Nat → Nat)
    (_hpos : 0 < totalSize) (hcap : numRanges totalSize ≤ 2047)
    (hzero : ∀ i, i < MAX_CHUNKS → bitmap i = 0) :
    ∃ q, planLoop totalSize bitmap = some q ∧
      queuedRanges q = (List.range (numRanges totalSize)).map (rangeOf totalSize) ∧
      (∀ c ∈ queuedRanges q, c.start ≤ c.end_) ∧
      (queuedRanges q).Pairwise (fun a b => a.end_ < b.start) ∧
      (∀ x, x < totalSize ↔ ∃ c ∈ queuedRanges q, c.start ≤ x ∧ x ≤ c.end_) := by
  obtain ⟨q, hq, _, hr⟩ := planLoop_queued totalSize bitmap hcap
  have hz := unflaggedRanges_zero totalSize bitmap (hcap.trans (by decide)) hzero
  refine ⟨q, hq, hr.trans hz, ?_, ?_, ?_⟩
  · intro c hc
    rw [hr, hz, List.mem_map] at hc
    obtain ⟨i, hi, rfl⟩ := hc
    exact rangeOf_valid totalSize i (List.mem_range.mp hi)
  · rw [hr]
    exact unflaggedRanges_pairwise totalSize bitmap
  · intro x
    rw [covered_iff, hr, hz]
    simp only [List.mem_map, List.mem_range]
    constructor
    · rintro ⟨i, hi, h1, h2⟩; exact ⟨_, ⟨i, hi, rfl⟩, h1, h2⟩
    · rintro ⟨_, ⟨i, hi, rfl⟩, h1, h2⟩; exact ⟨i, hi, h1, h2⟩

/-- C1, example: an object of 2621440 bytes with an all-incomplete bitmap is planned as
`[0,1048575]`, `[1048576,2097151]`, `[2097152,2621439]`. -/
theorem C1_witness_two_and_a_half_MiB :
    ∃ q, planLoop 2621440 (fun _ => 0) = some q ∧
      queuedRanges q = [⟨0, 1048575⟩, ⟨1048576, 2097151⟩, ⟨2097152, 2621439⟩] := by
  obtain ⟨q, hq, hr, _⟩ :=
    C1_plan_partitions_object 2621440 (fun _ => 0) (by decide) (by decide) (fun _ _ => rfl)
  exact ⟨q, hq, hr.trans (by decide)⟩

/-- C2, at the failing input: the remote object is the two bytes `[7, 9]`, its single
range is flagged complete and the destination file already holds `[7, 9]`. After the
start-up of `main` nothing is queued and the file is `[0, 0]`; a run in which every
fetch would succeed leaves it `[0, 0]`, which is not the remote object. The same happens
for every object: after the start-up the file holds `totalSize` zero bytes. -/
theorem C2_startup_truncates_completed_data :
    (startup 2 flags0 [7, 9]).map (fun w => (queuedRanges w.queue, w.file))
      = some ([], [0, 0]) ∧
    ((startup 2 flags0 [7, 9]).bind
        (run_workers (remoteOracle [7, 9]) (determine_thread_count 2))).map
      (fun w => (w.file, w.completed_chunks 0, decide (w.file = [7, 9])))
      = some ([0, 0], 1, false) ∧
    (∀ totalSize bitmap oldFile w, 0 < totalSize →
      startup totalSize bitmap oldFile = some w → w.file = List.replicate totalSize 0) := by
  refine ⟨by decide, by decide, ?_⟩
  intro totalSize bitmap oldFile w hpos h
  exact startup_file totalSize bitmap oldFile w hpos h

/-- C3: for an object of at most 2047 ranges and any loaded bitmap, the queue the planning
loop of `main` builds from the empty queue holds exactly the ranges
`[i * CHUNK_SIZE, min ((i + 1) * CHUNK_SIZE, totalSize) - 1]` of the indices `i` whose
byte `completed_chunks[i]` is not 1, in ascending order of `start`, each once; a range
is queued if and only if its byte is not 1. -/
theorem C3_queue_holds_unflagged_ranges (totalSize : Nat) (bitmap : Nat → Nat)
    (_hpos : 0 < totalSize) (hcap : numRanges totalSize ≤ 2047) :
    ∃ q, planLoop totalSize bitmap = some q ∧
      queuedRanges q = ((List.range (numRanges totalSize)).filter
        (fun i => decide (bitmap i ≠ 1))).map (rangeOf totalSize) ∧
      (queuedRanges q).Pairwise (fun a b => a.start < b.start) ∧
      (∀ i, i < numRanges totalSize → (rangeOf totalSize i ∈ queuedRanges q ↔ bitmap i ≠ 1)) := by
  obtain ⟨q, hq, _, hr⟩ := planLoop_queued totalSize bitmap hcap
  refine ⟨q, hq, hr, ?_, ?_⟩
  · rw [hr]
    simp only [unflaggedRanges]
    rw [List.pairwise_map]
    refine List.Pairwise.imp ?_ ((List.pairwise_lt_range _).filter _)
    intro a b hab
    simp only [rangeOf_start, CHUNK_SIZE]
    omega
  · intro i hi
    rw [hr, mem_unflaggedRanges]
    constructor
    · rintro ⟨j, _, hb, hij⟩
      rwa [rangeOf_injective totalSize hij]
    · intro hb
      exact ⟨i, hi, hb, rfl⟩

/-- C3, example: an object of three ranges with the indices 0 and 2 flagged leaves only
the range of index 1 in the queue. -/
theorem C3_witness_three_ranges :
    ∃ q, planLoop 3145728 flags02 = some q ∧ queuedRanges q = [⟨1048576, 2097151⟩] := by
  obtain ⟨q, hq, hr, _⟩ := C3_queue_holds_unflagged_ranges 3145728 flags02 (by decide) (by decide)
  exact ⟨q, hq, hr.trans (by decide)⟩

/-- C4: a worker has dequeued a range, and on each of the `MAX_RETRIES = 3` attempts
`curl_easy_perform` runs and fails. Then the retry loop calls `curl_easy_perform` three
times for the range, prints the report "failed after retries" for it once, after the
third call, leaves every completion flag as it was, and the worker goes on with the
next pass of its loop, which starts with the next dequeue. -/
theorem C4_retry_budget (oracle : Oracle) (w : World) (c : Chunk) (q : Queue) (fuel : Nat)
    (hdq : dequeue_chunk w.queue = some (c, q))
    (hfail : ∀ k, k < MAX_RETRIES → (oracle c k).fetched = true ∧ (oracle c k).ok = false) :
    ∃ w', retryLoop oracle c MAX_RETRIES (w.withQueue q) = w' ∧
      workerLoop oracle (fuel + 1) w = workerLoop oracle fuel w' ∧
      w'.trace = w.trace ++
        [Event.perform c, Event.perform c, Event.perform c, Event.report c] ∧
      w'.completed_chunks = w.completed_chunks ∧
      w'.queue = q := by
  refine ⟨_, rfl, ?_, ?_, ?_, ?_⟩
  · simp only [workerLoop, hdq]
  · obtain ⟨s0, h0⟩ := attempt_failed_cases _ (hfail 0 (by decide)).1 (hfail 0 (by decide)).2
    obtain ⟨s1, h1⟩ := attempt_failed_cases _ (hfail 1 (by decide)).1 (hfail 1 (by decide)).2
    obtain ⟨s2, h2⟩ := attempt_failed_cases _ (hfail 2 (by decide)).1 (hfail 2 (by decide)).2
    simp [MAX_RETRIES, retryLoop, h0, h1, h2, onFailure_trace, performFetch_trace]
    rfl
  · obtain ⟨s0, h0⟩ := attempt_failed_cases _ (hfail 0 (by decide)).1 (hfail 0 (by decide)).2
    obtain ⟨s1, h1⟩ := attempt_failed_cases _ (hfail 1 (by decide)).1 (hfail 1 (by decide)).2
    obtain ⟨s2, h2⟩ := attempt_failed_cases _ (hfail 2 (by decide)).1 (hfail 2 (by decide)).2
    simp [MAX_RETRIES, retryLoop, h0, h1, h2, onFailure_completed, performFetch_completed]
    rfl
  · rw [retryLoop_withQueue]
    rfl

/-- C4, example: the queue holds the range `[0,0]` and every attempt fails. -/
theorem C4_witness_one_range :
    ∃ w', retryLoop failOracle ⟨0, 0⟩ MAX_RETRIES
        (oneRangeWorld.withQueue { oneRangeWorld.queue with queueFront := 1 }) = w' ∧
      workerLoop failOracle (3 + 1) oneRangeWorld = workerLoop failOracle 3 w' ∧
      w'.trace = [] ++ [Event.perform ⟨0, 0⟩, Event.perform ⟨0, 0⟩, Event.perform ⟨0, 0⟩,
        Event.report ⟨0, 0⟩] ∧
      w'.completed_chunks = oneRangeWorld.completed_chunks ∧
      w'.queue = { oneRangeWorld.queue with queueFront := 1 } :=
  C4_retry_budget failOracle oneRangeWorld ⟨0, 0⟩ { oneRangeWorld.queue with queueFront := 1 } 3
    rfl (fun _ _ => ⟨rfl, rfl⟩)

/-- C5, counterexample: a one-byte object, nothing flagged; the first attempt on the
range `[0,0]` writes one byte and fails, the second writes one byte and succeeds. The
range ends with a successful fetch of exactly its one byte and its flag is set, but
`totalDownloaded` ends at 2 while `totalSize` is 1. -/
theorem C5_counterexample_retry_counts_twice :
    EndsWithExactSuccess retryOracle ⟨0, 0⟩ ∧
    (startup 1 (fun _ => 0) []).map (fun w => queuedRanges w.queue) = some [⟨0, 0⟩] ∧
    ((startup 1 (fun _ => 0) []).bind (run_workers retryOracle (determine_thread_count 1))).map
      (fun w => (w.completed_chunks 0, w.totalDownloaded, w.totalSize)) = some (1, 2, 1) := by
  refine ⟨⟨1, by decide, ?_, rfl, rfl⟩, by decide, by decide⟩
  intro j hj
  have : j = 0 := by omega
  subst this
  rfl

/-- C5, amended: for an object of at most 2047 ranges and any loaded bitmap, after a run
in which every queued range ends with a successful fetch that delivers exactly its
`end - start + 1` bytes, the flag of every index `0 .. numRanges - 1` is 1 and
`totalDownloaded` is `totalSize` plus the bytes that failed attempts delivered before
the successful ones; it equals `totalSize` when no failed attempt delivered a byte. -/
theorem C5_successful_run (totalSize : Nat) (bitmap : Nat → Nat) (oldFile : List Nat)
    (oracle : Oracle) (_hpos : 0 < totalSize) (hcap : numRanges totalSize ≤ 2047)
    (hok : ∀ w0, startup totalSize bitmap oldFile = some w0 →
      ∀ c ∈ queuedRanges w0.queue, EndsWithExactSuccess oracle c) :
    ∃ w0 w, startup totalSize bitmap oldFile = some w0 ∧
      run_workers oracle (determine_thread_count totalSize) w0 = some w ∧
      (∀ i, i < numRanges totalSize → w.completed_chunks i = 1) ∧
      w.totalDownloaded
        = totalSize + ((queuedRanges w0.queue).map (failedBytes oracle)).sum ∧
      ((∀ c ∈ queuedRanges w0.queue, ∀ k, k < MAX_RETRIES →
          (oracle c k).ok = false → (oracle c k).bytes = 0) →
        w.totalDownloaded = totalSize) := by
  obtain ⟨w0', hw0', hh, _⟩ := startup_spec totalSize bitmap oldFile
  have hcap' : numRanges totalSize ≤ MAX_CHUNKS - 1 := hcap
  rw [List.take_of_length_le ((unflaggedRanges_length_le totalSize bitmap).trans hcap')] at hh
  have hok' : ∀ c ∈ unflaggedRanges totalSize bitmap, EndsWithExactSuccess oracle c := by
    intro c hc
    exact hok w0' hw0' c (by rw [queuedRanges_of_holds hh]; exact hc)
  obtain ⟨w0, w, h1, hq, h2, h3, h4⟩ := run_success totalSize bitmap oldFile oracle hcap hok'
  refine ⟨w0, w, h1, h2, h3, by rw [hq]; exact h4, ?_⟩
  intro hzero
  rw [h4]
  have : ((unflaggedRanges totalSize bitmap).map (failedBytes oracle)).sum = 0 := by
    apply List.sum_eq_zero
    intro x hx
    obtain ⟨c, hc, rfl⟩ := List.mem_map.mp hx
    exact failedBytes_zero oracle c (hzero c (by rw [hq]; exact hc))
  omega

/-- C5, example: an object of 2621440 bytes, nothing flagged, every fetch successful at
the first attempt. -/
theorem C5_witness_first_attempts_succeed :
    ∃ w0 w, startup 2621440 (fun _ => 0) [] = some w0 ∧
      run_workers goodOracle (determine_thread_count 2621440) w0 = some w ∧
      (∀ i, i < numRanges 2621440 → w.completed_chunks i = 1) ∧
      w.totalDownloaded = 2621440 := by
  obtain ⟨w0, w, h1, h2, h3, _, h5⟩ :=
    C5_successful_run 2621440 (fun _ => 0) [] goodOracle (by decide) (by decide)
      (fun _ _ c _ => ⟨0, by decide, fun j hj => absurd hj (Nat.not_lt_zero j), rfl,
        by simp [goodOracle, Attempt.bytes]⟩)
  exact ⟨w0, w, h1, h2, h3, h5 (fun _ _ k _ hk => by simp [goodOracle, Attempt.ok] at hk)⟩

/-- C6, at the failing input: a one-byte object, nothing flagged, and every attempt on
the range `[0,0]` fails without delivering a byte. The worker makes three attempts,
reports the range and ends; `totalDownloaded` is 0 and `totalSize` is 1, so the exit test
of the reporter is false. The counter no longer changes, the reporter never leaves its
loop, and `main`, which joins the reporter before it returns, returns no exit code
however many passes the reporter is given. -/
theorem C6_abandoned_range_blocks_reporter :
    ((startup 1 (fun _ => 0) []).bind
        (run_workers failOracle (determine_thread_count 1))).map
      (fun w => (w.trace, w.completed_chunks 0, w.totalDownloaded, w.totalSize, reporterDone w))
      = some ([Event.perform ⟨0, 0⟩, Event.perform ⟨0, 0⟩, Event.perform ⟨0, 0⟩,
          Event.report ⟨0, 0⟩], 0, 0, 1, false) ∧
    ∀ fuel, main 1 (fun _ => 0) [] true failOracle fuel = none := by
  have hrun : ((startup 1 (fun _ => 0) []).bind
        (run_workers failOracle (determine_thread_count 1))).map
      (fun w => (w.trace, w.completed_chunks 0, w.totalDownloaded, w.totalSize, reporterDone w))
      = some ([Event.perform ⟨0, 0⟩, Event.perform ⟨0, 0⟩, Event.perform ⟨0, 0⟩,
          Event.report ⟨0, 0⟩], 0, 0, 1, false) := by decide
  refine ⟨hrun, ?_⟩
  intro fuel
  obtain ⟨w, hw, hv⟩ := Option.map_eq_some'.mp hrun
  obtain ⟨w0, hw0, hw1⟩ := Option.bind_eq_some.mp hw
  have htd : w.totalDownloaded = 0 := congrArg (fun t => t.2.2.1) hv
  have hts : w.totalSize = 1 := congrArg (fun t => t.2.2.2.1) hv
  have hstuck := show_progress_stuck w (by omega) fuel
  have hone : (1 : Int).toNat = 1 := rfl
  simp only [main, hone]
  rw [hw0]
  simp only [Option.some_bind]
  rw [hw1]
  simp [hstuck]

/-- C7, at the failing input: the 2048 ranges planned for a 2048 MiB object are enqueued
one after another into the empty queue. The first 2047 calls of `enqueue_chunk` return
1, the last one returns 0, and `dequeue_chunk` afterwards hands out the first 2047 ranges
only; the planning loop of `main`, run on that object with an all-incomplete bitmap,
leaves the same 2047 ranges. -/
theorem C7_enqueue_2048_drops_last :
    (plannedRanges 2147483648).map (List.map Prod.snd)
      = some ((List.range 2048).map (rangeOf 2147483648)) ∧
    (enqueueAll emptyQueue ((List.range 2048).map (rangeOf 2147483648))).2
      = List.replicate 2047 1 ++ [0] ∧
    queuedRanges (enqueueAll emptyQueue ((List.range 2048).map (rangeOf 2147483648))).1
      = (List.range 2047).map (rangeOf 2147483648) ∧
    (∃ q, planLoop 2147483648 (fun _ => 0) = some q ∧
      queuedRanges q = (List.range 2047).map (rangeOf 2147483648)) := by
  obtain ⟨h1, h2⟩ := enqueueAll_of_holds ((List.range 2048).map (rangeOf 2147483648))
    emptyQueue [] holds_emptyQueue
  refine ⟨?_, ?_, ?_, ?_⟩
  · rw [plannedRanges_eq, numRanges_2GiB, Option.map_some', List.map_map]
    rfl
  · rw [h2]
    simp only [List.length_map, List.length_range, List.length_nil, MAX_CHUNKS]
    exact codes_full 2047
  · rw [queuedRanges_of_holds h1, pushBounded_foldl _ _ holds_emptyQueue.2.1,
      List.nil_append, List.length_nil, Nat.sub_zero, ← List.map_take, List.take_range]
    rfl
  · obtain ⟨q, hq, hh⟩ := planLoop_spec 2147483648 (fun _ => 0)
    refine ⟨q, hq, ?_⟩
    rw [queuedRanges_of_holds hh,
      take_unflagged_zero _ _ (by rw [numRanges_2GiB]; decide) (fun _ _ => rfl), numRanges_2GiB]
    rfl

/-- C8: `determine_thread_count` follows the threshold table for every `long` argument:
2 below 10 MiB, 4 from 10 MiB to below 50 MiB, 8 from 50 MiB to below 200 MiB, 12 from
200 MiB to below 500 MiB, 16 from 500 MiB on; so 5 MiB gives 2, exactly 10 MiB gives 4,
40 MiB gives 4, 150 MiB gives 8, 400 MiB gives 12 and 1 GiB gives 16; the result never
exceeds `MAX_THREADS`. -/
theorem C8_thread_count_table (filesize_bytes : Int) :
    (determine_thread_count filesize_bytes = 2 ↔ filesize_bytes < 10 * 2 ^ 20) ∧
    (determine_thread_count filesize_bytes = 4 ↔
      10 * 2 ^ 20 ≤ filesize_bytes ∧ filesize_bytes < 50 * 2 ^ 20) ∧
    (determine_thread_count filesize_bytes = 8 ↔
      50 * 2 ^ 20 ≤ filesize_bytes ∧ filesize_bytes < 200 * 2 ^ 20) ∧
    (determine_thread_count filesize_bytes = 12 ↔
      200 * 2 ^ 20 ≤ filesize_bytes ∧ filesize_bytes < 500 * 2 ^ 20) ∧
    (determine_thread_count filesize_bytes = 16 ↔ 500 * 2 ^ 20 ≤ filesize_bytes) ∧
    determine_thread_count (5 * 2 ^ 20) = 2 ∧
    determine_thread_count (10 * 2 ^ 20) = 4 ∧
    determine_thread_count (40 * 2 ^ 20) = 4 ∧
    determine_thread_count (150 * 2 ^ 20) = 8 ∧
    determine_thread_count (400 * 2 ^ 20) = 12 ∧
    determine_thread_count (2 ^ 30) = 16 ∧
    determine_thread_count filesize_bytes ≤ MAX_THREADS := by
  refine ⟨?_, ?_, ?_, ?_, ?_, by decide, by decide, by decide, by decide, by decide,
    by decide, ?_⟩ <;>
  · simp only [determine_thread_count, MAX_THREADS]
    split_ifs <;> omega

/-- C9: for `0 < totalSize ≤ MAX_CHUNKS * CHUNK_SIZE` the planned ranges are the ranges
of the indices `0 .. numRanges - 1`, and the worker's index `start / CHUNK_SIZE` lists
the slots `0, 1, .., numRanges - 1` along them: every planned range goes to a slot below
`numRanges`, which exists in the bitmap; two planned ranges with the same index are the
same range; every slot below `numRanges` is the index of a planned range; the worker's
index of a range is the index `i / CHUNK_SIZE` the planner computed for it; and for any
bitmap, a range the planning loop queued is the planned range of its worker's index, for
which the planner found a byte other than 1. -/
theorem C9_range_index_bijection (totalSize : Nat) (_hpos : 0 < totalSize)
    (hmax : totalSize ≤ MAX_CHUNKS * CHUNK_SIZE) :
    ∃ rs, plannedRanges totalSize = some rs ∧
      rs.map Prod.snd = (List.range (numRanges totalSize)).map (rangeOf totalSize) ∧
      rs.map (fun p => p.2.index) = List.range (numRanges totalSize) ∧
      numRanges totalSize ≤ MAX_CHUNKS ∧
      (∀ p ∈ rs, p.2.index < numRanges totalSize) ∧
      (∀ p ∈ rs, ∀ p' ∈ rs, p.2.index = p'.2.index → p.2 = p'.2) ∧
      (∀ k, k < numRanges totalSize → ∃ p ∈ rs, p.2.index = k) ∧
      (∀ p ∈ rs, p.2.index = p.1) ∧
      (∀ bitmap q, planLoop totalSize bitmap = some q → ∀ c ∈ queuedRanges q,
        (c.index, c) ∈ rs ∧ bitmap c.index ≠ 1) := by
  refine ⟨_, plannedRanges_eq totalSize, ?_, ?_, ?_, ?_, ?_, ?_, ?_, ?_⟩
  · simp [List.map_map, Function.comp]
  · rw [List.map_map]
    have : ((fun p : Nat × Chunk => p.2.index) ∘ fun j => (j, rangeOf totalSize j)) = id := by
      funext j
      simp [rangeOf_index]
    rw [this, List.map_id]
  · simp only [numRanges, MAX_CHUNKS, CHUNK_SIZE] at *
    omega
  · intro p hp
    simp only [List.mem_map, List.mem_range] at hp
    obtain ⟨i, hi, rfl⟩ := hp
    simpa [rangeOf_index] using hi
  · intro p hp p' hp' h
    simp only [List.mem_map, List.mem_range] at hp hp'
    obtain ⟨i, _, rfl⟩ := hp
    obtain ⟨j, _, rfl⟩ := hp'
    simp only [rangeOf_index] at h
    simp [h]
  · intro k hk
    exact ⟨(k, rangeOf totalSize k), List.mem_map.mpr ⟨k, List.mem_range.mpr hk, rfl⟩,
      rangeOf_index totalSize k⟩
  · intro p hp
    simp only [List.mem_map, List.mem_range] at hp
    obtain ⟨i, _, rfl⟩ := hp
    simp [rangeOf_index]
  · intro bitmap q hq c hc
    obtain ⟨q', hq', hh⟩ := planLoop_spec totalSize bitmap
    rw [hq] at hq'
    cases hq'
    rw [queuedRanges_of_holds hh] at hc
    obtain ⟨i, hi, hb, rfl⟩ := (mem_unflaggedRanges totalSize bitmap c).mp (List.mem_of_mem_take hc)
    rw [rangeOf_index]
    exact ⟨List.mem_map.mpr ⟨i, List.mem_range.mpr hi, rfl⟩, hb⟩

/-- C9, example: the three planned ranges of an object of 2621440 bytes have the indices
0, 1, 2. -/
theorem C9_witness_three_ranges :
    ∃ rs, plannedRanges 2621440 = some rs ∧
      rs.map Prod.snd = [⟨0, 1048575⟩, ⟨1048576, 2097151⟩, ⟨2097152, 2621439⟩] ∧
      rs.map (fun p => p.2.index) = [0, 1, 2] := by
  obtain ⟨rs, h, h1, h2, _⟩ := C9_range_index_bijection 2621440 (by decide) (by decide)
  exact ⟨rs, h, h1.trans (by decide), h2.trans (by decide)⟩

/-- C10, at the failing input: for `totalSize = 2147483648` (2048 ranges) and a bitmap
without a flagged range the first loop of `main` leaves `totalDownloaded = 0`, the
planning loop queues ranges of 2146435072 bytes in total, and the two together fall
1048576 bytes short of `totalSize`. The first loop by itself does what is claimed: for
every object and bitmap it ends with the sum of the lengths of the flagged ranges. -/
theorem C10_baseline_plus_queued_2GiB :
    baselineLoop 2147483648 (fun _ => 0) = some 0 ∧
    (∃ q, planLoop 2147483648 (fun _ => 0) = some q ∧
      totalLen (queuedRanges q) = 2146435072 ∧
      0 + totalLen (queuedRanges q) ≠ 2147483648) ∧
    (∀ totalSize bitmap, baselineLoop totalSize bitmap = some (flaggedBytes totalSize bitmap)) := by
  have hq : ∃ q, planLoop 2147483648 (fun _ => 0) = some q ∧
      totalLen (queuedRanges q) = 2146435072 := by
    obtain ⟨q, hq, hh⟩ := planLoop_spec 2147483648 (fun _ => 0)
    have hr := queuedRanges_of_holds hh
    rw [take_unflagged_zero _ _ (by rw [numRanges_2GiB]; decide) (fun _ _ => rfl),
      numRanges_2GiB] at hr
    have hmin : min (MAX_CHUNKS - 1) 2048 = 2047 := by decide
    rw [hmin] at hr
    refine ⟨q, hq, ?_⟩
    rw [hr, totalLen_firstRanges _ 2047 (by rw [numRanges_2GiB]; decide)]
    norm_num [CHUNK_SIZE]
  refine ⟨?_, ?_, baselineLoop_eq⟩
  · rw [baselineLoop_eq]
    have h := flaggedBytes_add_unflagged 2147483648 (fun _ => 0)
    rw [unflaggedRanges_zero _ _ (by rw [numRanges_2GiB]; decide) (fun _ _ => rfl),
      totalLen_all] at h
    have h0 : flaggedBytes 2147483648 (fun _ => 0) = 0 := by omega
    rw [h0]
  · obtain ⟨q, hq, hlen⟩ := hq
    exact ⟨q, hq, hlen, by rw [hlen]; decide⟩

end Downloader
